import Mathlib

/-!
Verification of the batch filename-case normalizer
(`src/lowercase_cpp_hpp_files.py` of hydra_sdk).

The script walks a directory tree, renames every `.cpp`/`.hpp` file to its
lowercase name through a uniquely-named intermediate, resolves destination
collisions by content comparison, and offers a heuristic revert mode.

Shallow embedding conventions:
* A filesystem is an association list from paths to byte contents, where a
  path is a pair (containing directory, file name).  `os.rename` overwrites
  an existing destination (POSIX semantics) and is modelled as a no-op when
  the source is missing; on every path exercised by the theorems below the
  source of a rename exists.
* Directory-walk order is the order in which entries appear in the
  association list (the script imposes no ordering of its own, so any
  concrete order realises one possible filesystem enumeration).
* `uuid.uuid4().hex` produces a fresh name; freshness is modelled by
  `freshTag`, which returns a string strictly longer than every file name
  currently in the filesystem (hence distinct from all of them).
* File names are ASCII, so Python's `str.lower`/`str.upper`/`str.capitalize`
  coincide with `Char.toLower`/`Char.toUpper` applied pointwise.
* Python's `list(set(xs))` has an unspecified order; it is modelled by an
  arbitrary function parameter `dedup : List String → List String`.
  Statements that hold for every such function hold in particular for
  whatever order the Python runtime produces; concrete evaluations
  instantiate it with `List.dedup`.
* Exceptions raised by filesystem calls in the forward pass are modelled by
  an explicit fault parameter (`FStep`) naming the primitive operation that
  raises, mirroring the `try`/`except` structure of the source; the
  fault-free run is the instance where no fault is injected.
-/

namespace HydraLower

/-! ## Python string primitives (ASCII) -/

/-- Python `str.lower` on ASCII strings: lowercase every character. -/
def pyLower (s : String) : String := String.mk (s.data.map Char.toLower)

/-- Python `str.upper` on ASCII strings: uppercase every character. -/
def pyUpper (s : String) : String := String.mk (s.data.map Char.toUpper)

/-- Python `str.capitalize`: first character uppercased, the rest lowercased. -/
def pyCapitalize (s : String) : String :=
  match s.data with
  | [] => String.mk []
  | c :: cs => String.mk (Char.toUpper c :: cs.map Char.toLower)

/-- The first capitalization pattern of `revert_lowercase_conversion`
(line 144): `s[0].upper() + s[1:]` — first character uppercased, rest kept. -/
def patternCapFirst (s : String) : String :=
  match s.data with
  | [] => String.mk []
  | c :: cs => String.mk (Char.toUpper c :: cs)

/-- Python `s.split('_')` on the character list (`"".split('_') == [""]`,
empty segments kept). -/
def splitUnderscore : List Char → List (List Char)
  | [] => [[]]
  | c :: cs =>
      if c = '_' then [] :: splitUnderscore cs
      else
        match splitUnderscore cs with
        | [] => [[c]]
        | w :: ws => (c :: w) :: ws

/-- `str.capitalize` on a character list. -/
def pyCapitalizeList : List Char → List Char
  | [] => []
  | c :: cs => c.toUpper :: cs.map Char.toLower

/-- The camelCase pattern (line 148): underscore-split words, first kept
as-is, the rest capitalized, joined. -/
def patternCamel (s : String) : String :=
  match splitUnderscore s.data with
  | [] => String.mk []
  | w :: ws => String.mk (w ++ (ws.map pyCapitalizeList).flatten)

/-- The PascalCase pattern (line 150): every underscore-split word
capitalized, joined. -/
def patternPascal (s : String) : String :=
  String.mk (((splitUnderscore s.data).map pyCapitalizeList).flatten)

/-- Split a character list at its last `'.'`; the dot goes with the second
component.  Returns `(cs, [])` when there is no dot. -/
def splitLast : List Char → List Char × List Char
  | [] => ([], [])
  | c :: rest =>
      if ('.' : Char) ∈ rest then
        ((splitLast rest).1.cons c, (splitLast rest).2)
      else if c = '.' then ([], c :: rest)
      else (c :: rest, [])

/-- Python `os.path.splitext` on a file name: split at the last dot, except
that a run of leading dots belongs to the stem (so `".hpp"` has no
extension).  For a path, `splitext` looks only at the base name; the script
only ever applies it to names whose base carries the extension. -/
def splitext (s : String) : String × String :=
  let cs := s.data
  let lead := cs.takeWhile (fun c => c = '.')
  let rest := cs.dropWhile (fun c => c = '.')
  (String.mk (lead ++ (splitLast rest).1), String.mk (splitLast rest).2)

/-- Python `a.endswith(b)`. -/
def strEndsWith (a b : String) : Bool :=
  b.data.isSuffixOf a.data

/-- Python `a.startswith(b)`. -/
def strStartsWith (a b : String) : Bool :=
  b.data.isPrefixOf a.data

/-- `filename.lower().endswith(('.cpp', '.hpp'))` (line 59 and line 155). -/
def isCppHpp (name : String) : Bool :=
  strEndsWith (pyLower name) ".cpp" || strEndsWith (pyLower name) ".hpp"

/-! ## Filesystem model -/

/-- A path: containing directory and file name. -/
abbrev Path := String × String

/-- File contents as a byte list; `os.path.getsize` is its length. -/
abbrev Content := List Nat

/-- A filesystem: an association list of paths and contents, in the order
the directory walk enumerates them. -/
abbrev Fs := List (Path × Content)

/-- Look up the content stored at a path. -/
def fsGet (fs : Fs) (p : Path) : Option Content :=
  (fs.find? (fun e => e.1 == p)).map Prod.snd

/-- `os.path.exists`. -/
def fsExists (fs : Fs) (p : Path) : Bool :=
  (fs.find? (fun e => e.1 == p)).isSome

/-- `os.rename src dst`: remove the source binding and (re)bind the
destination to the source's content, overwriting any previous destination
binding (POSIX).  A no-op when the source is missing (the real call would
raise; all renames reached by the theorems have an existing source or are
explicitly fault-injected). -/
def fsRename (fs : Fs) (src dst : Path) : Fs :=
  match fsGet fs src with
  | none => fs
  | some c => fs.filter (fun e => e.1 ≠ src ∧ e.1 ≠ dst) ++ [(dst, c)]

/-- `os.remove`. -/
def fsRemove (fs : Fs) (p : Path) : Fs :=
  fs.filter (fun e => e.1 ≠ p)

/-- `os.path.getsize`, with an arbitrary default on a missing file (the real
call would raise; that situation is fault-injected where it matters). -/
def fsSize (fs : Fs) (p : Path) : Nat :=
  ((fsGet fs p).getD []).length

/-- Read a file's bytes, defaulting to empty on a missing file. -/
def fsRead (fs : Fs) (p : Path) : Content :=
  (fsGet fs p).getD []

/-- Total length of all file names in the filesystem. -/
def sumNameLens (fs : Fs) : Nat :=
  (fs.map (fun e => e.1.2.length)).sum

/-- Model of `uuid.uuid4().hex`: a tag strictly longer than every file name
currently present, hence fresh. -/
def freshTag (fs : Fs) : String :=
  String.mk (List.replicate (sumNameLens fs + 1) 'f')

/-! ## Directory walking and the forward collection pass -/

/-- `os.walk directory` reaches directory `d` iff `d` is the root itself or
lies below it. -/
def underDir (root d : String) : Bool :=
  root == d || strStartsWith d (root ++ "/")

/-- A walked directory is skipped when any exclusion entry is a raw string
prefix of it (`root.startswith(exclude_dir)`, line 52). -/
def walkedDir (root : String) (ex : List String) (d : String) : Bool :=
  underDir root d && !(ex.any (fun e => strStartsWith d e))

/-- First pass of `convert_to_lowercase` (lines 46-65): walk the tree,
collect `(filepath, lowercase_filepath)` pairs for every in-scope file whose
name is not already lowercase.  The second component is the final value of
the loop variable `lowercase_filename` — the lowercase name of the *last*
`.cpp`/`.hpp` file seen by the walk, which the apply pass later reads when
building the `_alt` name (line 99). -/
def collectAux (root : String) (ex : List String) :
    Fs → List (Path × Path) × Option String
  | [] => ([], none)
  | e :: rest =>
      let tail := collectAux root ex rest
      if walkedDir root ex e.1.1 then
        if isCppHpp e.1.2 then
          let low := pyLower e.1.2
          ((if e.1.2 ≠ low then [(e.1, (e.1.1, low))] else []) ++ tail.1,
            some (tail.2.getD low))
        else tail
      else tail

/-! ## The collision-safe apply pass, with injected faults -/

/-- The filesystem primitives inside the per-plan `try` block (lines 69-107)
that can raise: renaming to the temp name, backing up the existing
destination, the final rename onto the destination, the size/content
comparison (including the backup delete), and the rename of the backup to
the `_alt` name. -/
inductive FStep
  | tempRename
  | backupRename
  | finalRename
  | compareRead
  | altRename
deriving DecidableEq

/-- The error text recorded for a fault (`str(e)`, line 110), abstracted per
failing step. -/
def errMsg : FStep → String
  | FStep.tempRename => "rename to temporary name failed"
  | FStep.backupRename => "rename of existing destination to backup failed"
  | FStep.finalRename => "rename of temporary file to destination failed"
  | FStep.compareRead => "comparison of backup and destination failed"
  | FStep.altRename => "rename of backup to alternate name failed"

/-- The `except` block's best-effort compensation (lines 112-117): if the
temp file still exists, try to rename it back to the source; the inner
`except: pass` (a compensation that itself fails) is the `compFails` flag. -/
def compensate (compFails : Bool) (fs : Fs) (tmp src : Path) : Fs :=
  if fsExists fs tmp ∧ compFails = false then fsRename fs tmp src else fs

/-- The `_alt` path built at lines 99-100: directory of the plan's
destination, name derived from the stale loop variable `lowercase_filename`
(NOT from the plan's own destination). -/
def altPath (lowercaseFilename : String) (dst : Path) : Path :=
  (dst.1, (splitext lowercaseFilename).1 ++ "_alt" ++ (splitext lowercaseFilename).2)

/-- One iteration of the second pass of `convert_to_lowercase`
(lines 68-117) on plan `(src, dst)`, with an optional injected fault naming
the primitive that raises.  Returns the new filesystem, the entry appended
to `renamed_files` (if any) and the entry appended to `skipped_files`
(if any).  Without a fault this is the literal step sequence: rename source
to a fresh temp name; if the destination exists, rename it to a fresh backup
name; rename the temp to the destination; if there was a backup, delete it
when byte-length and then content match, otherwise rename it to the `_alt`
name. -/
def applyPlanF (fault : Option FStep) (compFails : Bool) (fs : Fs)
    (lowercaseFilename : String) (src dst : Path) :
    Fs × Option (Path × Path) × Option (Path × String) :=
  let tmp : Path := (src.1, "temp_" ++ freshTag fs ++ (splitext src.2).2)
  if fault = some FStep.tempRename then
    (compensate compFails fs tmp src, none, some (src, errMsg FStep.tempRename))
  else
    let fs1 := fsRename fs src tmp
    if fsExists fs1 dst then
      if fault = some FStep.backupRename then
        (compensate compFails fs1 tmp src, none, some (src, errMsg FStep.backupRename))
      else
        let bk : Path := (dst.1, "backup_" ++ freshTag fs1 ++ (splitext dst.2).2)
        let fs2 := fsRename fs1 dst bk
        if fault = some FStep.finalRename then
          (compensate compFails fs2 tmp src, none, some (src, errMsg FStep.finalRename))
        else
          let fs3 := fsRename fs2 tmp dst
          if fault = some FStep.compareRead then
            (compensate compFails fs3 tmp src, none, some (src, errMsg FStep.compareRead))
          else if fsSize fs3 bk = fsSize fs3 dst ∧ fsRead fs3 bk = fsRead fs3 dst then
            (fsRemove fs3 bk, some (src, dst), none)
          else if fault = some FStep.altRename then
            (compensate compFails fs3 tmp src, none, some (src, errMsg FStep.altRename))
          else
            (fsRename fs3 bk (altPath lowercaseFilename dst), some (src, dst), none)
    else
      if fault = some FStep.finalRename then
        (compensate compFails fs1 tmp src, none, some (src, errMsg FStep.finalRename))
      else
        (fsRename fs1 tmp dst, some (src, dst), none)

/-- The apply loop over all collected plans: each plan is processed inside
its own `try`, so the loop always continues to the next plan whatever the
outcome.  `faults i` names the fault injected into the `i`-th iteration
(and whether its compensation also fails); `(none, _)` is a fault-free
iteration. -/
def applyPlansFAux (faults : Nat → Option FStep × Bool)
    (lowercaseFilename : String) :
    Nat → Fs → List (Path × Path) → Fs × List (Path × Path) × List (Path × String)
  | _, fs, [] => (fs, [], [])
  | i, fs, p :: rest =>
      let fc := faults i
      let r1 := applyPlanF fc.1 fc.2 fs lowercaseFilename p.1 p.2
      let r2 := applyPlansFAux faults lowercaseFilename (i + 1) r1.1 rest
      (r2.1, r1.2.1.toList ++ r2.2.1, r1.2.2.toList ++ r2.2.2)

/-- The fault-free run. -/
def noFaults : Nat → Option FStep × Bool := fun _ => (none, false)

/-! ## The reversal heuristic -/

/-- `case_map.get(ext.lower(), [ext.upper(), ext.capitalize()])`
(lines 135-139 and 173). -/
def caseMapGet (ext : String) : List String :=
  if pyLower ext = "cpp" then ["CPP", "Cpp"]
  else if pyLower ext = "hpp" then ["HPP", "Hpp"]
  else [pyUpper ext, pyCapitalize ext]

/-- The fixed, ordered capitalization patterns of lines 142-151. -/
def capitalizationPatterns : List (String → String) :=
  [patternCapFirst, pyUpper, patternCamel, patternPascal]

/-- `potential_original_names` as generated in order by lines 166-178:
each pattern that changes the stem, combined with each extension variant,
followed by the all-upper and capitalized stems with the original
extension. -/
def potentialOriginalNames (name ext : String) : List String :=
  (capitalizationPatterns.map (fun pat =>
    let pn := pat name
    if pn ≠ name then (caseMapGet ext).map (fun pe => pn ++ "." ++ pe) else [])).flatten
  ++ [pyUpper name ++ "." ++ ext, pyCapitalize name ++ "." ++ ext]

/-- The file names currently listed in directory `d`. -/
def namesInDir (fs : Fs) (d : String) : List String :=
  (fs.filter (fun e => e.1.1 == d)).map (fun e => e.1.2)

/-- `similar_files` (lines 184-190): files of the same directory, listed
live, whose name matches case-insensitively but differs in case. -/
def similarFiles (fs : Fs) (d filename : String) : List String :=
  (namesInDir fs d).filter (fun g => pyLower g == pyLower filename && g != filename)

/-- The sequence of candidate original names the revert pass iterates over
for one file: the first same-named sibling alone when one exists (lines
192-215 never consult the pattern guesses), otherwise the generated
candidates after the order-destroying `list(set(...))` of line 181,
modelled by the `dedup` parameter. -/
def candidateSequence (dedup : List String → List String)
    (similar : List String) (name ext : String) : List String :=
  match similar with
  | g :: _ => [g]
  | [] => dedup (potentialOriginalNames name ext)

/-- Processing of one walked file by `revert_lowercase_conversion`
(lines 154-244), fault-free: skip files that are not in-scope or not
all-lowercase; with a same-named sibling, rename onto the sibling's path via
a fresh temp name (no existence check — the sibling path exists by
construction); otherwise take the first generated candidate whose path does
not exist and rename onto it via a fresh temp name; if every candidate
exists, leave the file untouched and record nothing. -/
def revertFile (dedup : List String → List String) (fs : Fs)
    (root filename : String) : Fs × Option (Path × Path) :=
  if isCppHpp filename then
    if filename = pyLower filename then
      let name := (splitext filename).1
      let ext := (splitext filename).2.drop 1
      match similarFiles fs root filename with
      | g :: _ =>
          let tmp : Path := (root, "temp_" ++ freshTag fs ++ (splitext filename).2)
          let fs1 := fsRename fs (root, filename) tmp
          let fs2 := fsRename fs1 tmp (root, g)
          (fs2, some ((root, filename), (root, g)))
      | [] =>
          match (dedup (potentialOriginalNames name ext)).find?
              (fun c => !(fsExists fs (root, c))) with
          | some c =>
              let tmp : Path := (root, "temp_" ++ freshTag fs ++ (splitext filename).2)
              let fs1 := fsRename fs (root, filename) tmp
              let fs2 := fsRename fs1 tmp (root, c)
              (fs2, some ((root, filename), (root, c)))
          | none => (fs, none)
    else (fs, none)
  else (fs, none)

/-- Iterate `revertFile` over the snapshot of one directory's file list. -/
def revertDirFiles (dedup : List String → List String) :
    Fs → String → List String → Fs × List (Path × Path)
  | fs, _, [] => (fs, [])
  | fs, d, g :: gs =>
      let r1 := revertFile dedup fs d g
      let r2 := revertDirFiles dedup r1.1 d gs
      (r2.1, r1.2.toList ++ r2.2)

/-- Deduplicate keeping the first occurrence (the order in which `os.walk`
first yields each directory). -/
def dedupFirst : List String → List String
  | [] => []
  | d :: ds => d :: (dedupFirst ds).filter (fun x => x != d)

/-- The directories of the filesystem reached by walking `root`, in
enumeration order. -/
def dirsOf (fs : Fs) (root : String) : List String :=
  dedupFirst ((fs.map (fun e => e.1.1)).filter (underDir root))

/-- Iterate over the walked directories. -/
def revertDirsGo (dedup : List String → List String) :
    Fs → List String → Fs × List (Path × Path)
  | fs, [] => (fs, [])
  | fs, d :: ds =>
      let r1 := revertDirFiles dedup fs d (namesInDir fs d)
      let r2 := revertDirsGo dedup r1.1 ds
      (r2.1, r1.2 ++ r2.2)

/-- `revert_lowercase_conversion(directory)` (lines 121-246): walk the
directory and process every file; returns the new filesystem and the
`reverted_files` list — the function records nothing else (in particular
no skipped entries). -/
def revertLowercaseConversion (dedup : List String → List String)
    (fs : Fs) (root : String) : Fs × List (Path × Path) :=
  revertDirsGo dedup fs (dirsOf fs root)

/-! ## The top-level driver -/

/-- The revert loop at lines 41-44. -/
def revertPhase (dedup : List String → List String) :
    Fs → List String → Fs × List (Path × Path)
  | fs, [] => (fs, [])
  | fs, rd :: rds =>
      let r1 := revertLowercaseConversion dedup fs rd
      let r2 := revertPhase dedup r1.1 rds
      (r2.1, r1.2 ++ r2.2)

/-- `convert_to_lowercase(directory, exclude_dirs, revert_dirs)`
(lines 19-119): first revert the requested directories, then collect and
apply forward rename plans over the whole tree (the revert directories are
not excluded from the forward walk).  Returns
`(filesystem, renamed_files, skipped_files, reverted_files)`. -/
def convertToLowercase (dedup : List String → List String)
    (faults : Nat → Option FStep × Bool) (fs : Fs) (directory : String)
    (excludeDirs revertDirs : List String) :
    Fs × List (Path × Path) × List (Path × String) × List (Path × Path) :=
  let rev := revertPhase dedup fs revertDirs
  let col := collectAux directory excludeDirs rev.1
  let app := applyPlansFAux faults (col.2.getD "") 0 rev.1 col.1
  (app.1, app.2.1, app.2.2, rev.2)

/-- `os.path.isdir` for the default `lib` exclusion: the directory exists
when some file lives in it or below it. -/
def dirExists (fs : Fs) (d : String) : Bool :=
  fs.any (fun e => underDir d e.1.1)

/-- The argument handling of `main` (lines 276-292): when neither
`--exclude` nor `--revert` is given and `directory/lib` exists, exclude it
by default; then run `convert_to_lowercase`. -/
def mainConvert (dedup : List String → List String)
    (faults : Nat → Option FStep × Bool) (fs : Fs) (directory : String)
    (excludeArg revertArg : List String) :
    Fs × List (Path × Path) × List (Path × String) × List (Path × Path) :=
  let excludeDirs :=
    if excludeArg = [] ∧ revertArg = [] ∧ dirExists fs (directory ++ "/lib") then
      [directory ++ "/lib"]
    else excludeArg
  convertToLowercase dedup faults fs directory excludeDirs revertArg

/-! ## Spec-side definition used for the refinement comparison -/

/-- The candidate sequence as the specification words it (for comparison
with `candidateSequence`, which is translated from the source): "a
case-insensitively matching sibling (if any) is the single
highest-confidence guess, followed by the fixed transform order
capitalize-first-letter, all-uppercase, camelCase, PascalCase, each
combined with the extension variants" — the extension variants being the
all-uppercase and title-case renderings of the extension. -/
def specCandidateSequence (similar : List String) (name ext : String) :
    List String :=
  similar.take 1 ++
    ([patternCapFirst, pyUpper, patternCamel, patternPascal].map (fun t =>
      [t name ++ "." ++ pyUpper ext, t name ++ "." ++ pyCapitalize ext])).flatten

/-! ## Basic lemmas about the string primitives -/

theorem char_ofNatAux_toNat (n : Nat) (h : n.isValidChar) :
    (Char.ofNatAux n h).toNat = n := by
  simp [Char.ofNatAux, Char.toNat, UInt32.toNat, BitVec.toNat_ofNatLt]

theorem char_ofNat_toNat (n : Nat) (h : n.isValidChar) :
    (Char.ofNat n).toNat = n := by
  unfold Char.ofNat
  simp [h, char_ofNatAux_toNat]

theorem charToLower_fix (d : Char) (hd : ¬(d.toNat ≥ 65 ∧ d.toNat ≤ 90)) :
    d.toLower = d := by
  unfold Char.toLower
  simp [hd]

theorem charToLower_idem (c : Char) : c.toLower.toLower = c.toLower := by
  by_cases h : c.toNat ≥ 65 ∧ c.toNat ≤ 90
  · have hv : (c.toNat + 32).isValidChar := by left; omega
    have hlow : c.toLower = Char.ofNat (c.toNat + 32) := by
      unfold Char.toLower
      simp [h]
    have ht : c.toLower.toNat = c.toNat + 32 := by
      rw [hlow, char_ofNat_toNat _ hv]
    apply charToLower_fix
    omega
  · rw [charToLower_fix c h, charToLower_fix c h]

theorem pyLower_data (s : String) : (pyLower s).data = s.data.map Char.toLower := by
  simp [pyLower]

theorem pyLower_idem (s : String) : pyLower (pyLower s) = pyLower s := by
  simp only [pyLower]
  congr 1
  rw [List.map_map]
  exact List.map_congr_left (fun a _ => charToLower_idem a)

theorem string_mk_append (a b : List Char) :
    String.mk a ++ String.mk b = String.mk (a ++ b) := rfl

theorem pyLower_append (s t : String) :
    pyLower (s ++ t) = pyLower s ++ pyLower t := by
  unfold pyLower
  rw [String.data_append, List.map_append, ← string_mk_append]

theorem pyLower_length (s : String) : (pyLower s).length = s.length := by
  unfold pyLower
  rw [String.length_mk, List.length_map]
  rfl

theorem list_map_eq_self_iff (f : Char → Char) (l : List Char) :
    l.map f = l ↔ ∀ c ∈ l, f c = c := by
  induction l with
  | nil => simp
  | cons a l ih => simp [ih]

/-- A string is already all-lowercase iff each of its characters is fixed by
`Char.toLower`. -/
theorem pyLower_eq_self_iff (s : String) :
    pyLower s = s ↔ ∀ c ∈ s.data, c.toLower = c := by
  constructor
  · intro h c hc
    have hd : s.data.map Char.toLower = s.data := by
      have := congrArg String.data h
      simpa [pyLower] using this
    exact (list_map_eq_self_iff _ _).mp hd c hc
  · intro h
    apply String.ext
    simp only [pyLower_data]
    exact (list_map_eq_self_iff _ _).mpr h

theorem splitLast_append (cs : List Char) :
    (splitLast cs).1 ++ (splitLast cs).2 = cs := by
  induction cs with
  | nil => simp [splitLast]
  | cons c rest ih =>
      by_cases h : ('.' : Char) ∈ rest
      · simp only [splitLast, h, if_true]
        simpa using congrArg (List.cons c) ih
      · by_cases hc : c = '.'
        · simp [splitLast, h, hc]
        · simp [splitLast, h, hc]

/-- The stem and extension of `splitext` partition the name around the run of
leading dots: `stem ++ ext = name`. -/
theorem splitext_append (s : String) :
    (splitext s).1 ++ (splitext s).2 = s := by
  simp only [splitext]
  apply String.ext
  simp only [String.data_append]
  show (s.data.takeWhile _ ++ (splitLast _).1) ++ (splitLast _).2 = s.data
  rw [List.append_assoc, splitLast_append, List.takeWhile_append_dropWhile]

/-- If a name is all-lowercase, so is its `splitext` stem. -/
theorem splitext_fst_lower (s : String) (h : pyLower s = s) :
    pyLower (splitext s).1 = (splitext s).1 := by
  rw [pyLower_eq_self_iff] at h ⊢
  intro c hc
  apply h
  have := splitext_append s
  have hdata : (splitext s).1.data ++ (splitext s).2.data = s.data := by
    have := congrArg String.data this
    simpa [String.data_append] using this
  rw [← hdata]
  exact List.mem_append_left _ hc

/-- If a name is all-lowercase, so is its `splitext` extension. -/
theorem splitext_snd_lower (s : String) (h : pyLower s = s) :
    pyLower (splitext s).2 = (splitext s).2 := by
  rw [pyLower_eq_self_iff] at h ⊢
  intro c hc
  apply h
  have := splitext_append s
  have hdata : (splitext s).1.data ++ (splitext s).2.data = s.data := by
    have := congrArg String.data this
    simpa [String.data_append] using this
  rw [← hdata]
  exact List.mem_append_right _ hc

/-! ## Filesystem lemmas -/

theorem fsGet_eq_some_mem {fs : Fs} {p : Path} {c : Content}
    (h : fsGet fs p = some c) : (p, c) ∈ fs := by
  unfold fsGet at h
  cases hf : fs.find? (fun e => e.1 == p) with
  | none => simp [hf] at h
  | some e =>
      have hm := List.mem_of_find?_eq_some hf
      have hp := List.find?_some hf
      simp [hf] at h
      have : e.1 = p := by simpa using hp
      rw [← h, ← this]
      exact hm

theorem mem_fsGet_isSome {fs : Fs} {p : Path} {c : Content}
    (h : (p, c) ∈ fs) : (fsGet fs p).isSome := by
  unfold fsGet
  have h2 : (fs.find? (fun e => e.1 == p)).isSome :=
    List.find?_isSome.mpr ⟨(p, c), h, by simp⟩
  rcases Option.isSome_iff_exists.mp h2 with ⟨e, he⟩
  simp [he]

theorem fsExists_iff (fs : Fs) (p : Path) :
    fsExists fs p = true ↔ ∃ c, (p, c) ∈ fs := by
  constructor
  · intro h
    unfold fsExists at h
    rw [List.find?_isSome] at h
    obtain ⟨e, he, hp⟩ := h
    refine ⟨e.2, ?_⟩
    have : e.1 = p := by simpa using hp
    rw [← this]
    exact he
  · rintro ⟨c, hc⟩
    unfold fsExists
    rw [List.find?_isSome]
    exact ⟨(p, c), hc, by simp⟩

theorem fsExists_false {fs : Fs} {p : Path}
    (h : fsExists fs p = false) : ∀ c, (p, c) ∉ fs := by
  intro c hc
  have := (fsExists_iff fs p).mpr ⟨c, hc⟩
  rw [h] at this
  exact Bool.false_ne_true this

/-- Bindings at other paths survive a rename. -/
theorem mem_fsRename_of_ne {fs : Fs} {q : Path} {c : Content}
    (src dst : Path) (hq : (q, c) ∈ fs) (h1 : q ≠ src) (h2 : q ≠ dst) :
    (q, c) ∈ fsRename fs src dst := by
  unfold fsRename
  cases fsGet fs src with
  | none => exact hq
  | some c0 =>
      apply List.mem_append_left
      rw [List.mem_filter]
      exact ⟨hq, by simp [h1, h2]⟩

/-- After a rename with an existing source, the destination holds the
source's old content. -/
theorem mem_fsRename_dst {fs : Fs} {src : Path} {c : Content}
    (dst : Path) (h : fsGet fs src = some c) :
    (dst, c) ∈ fsRename fs src dst := by
  unfold fsRename
  rw [h]
  exact List.mem_append_right _ (by simp)

/-- Every binding of a renamed filesystem either survived from the original
(at a path other than source and destination) or is the moved file. -/
theorem mem_fsRename_cases {fs : Fs} {src dst q : Path} {c : Content}
    (h : (q, c) ∈ fsRename fs src dst) :
    ((q, c) ∈ fs ∧ (fsGet fs src = none ∨ (q ≠ src ∧ q ≠ dst))) ∨
      (q = dst ∧ fsGet fs src = some c) := by
  unfold fsRename at h
  cases hg : fsGet fs src with
  | none =>
      rw [hg] at h
      exact Or.inl ⟨h, Or.inl rfl⟩
  | some c0 =>
      rw [hg] at h
      rcases List.mem_append.mp h with hl | hr
      · rw [List.mem_filter] at hl
        refine Or.inl ⟨hl.1, Or.inr ?_⟩
        have := hl.2
        simp only [decide_eq_true_eq, Bool.and_eq_true] at this
        exact ⟨by simpa using this.1, by simpa using this.2⟩
      · simp at hr
        exact Or.inr ⟨hr.1, by simp [hg, hr.2]⟩

theorem mem_fsRemove_of_ne {fs : Fs} {q : Path} {c : Content}
    (p : Path) (hq : (q, c) ∈ fs) (h : q ≠ p) :
    (q, c) ∈ fsRemove fs p := by
  unfold fsRemove
  rw [List.mem_filter]
  exact ⟨hq, by simp [h]⟩

theorem mem_fsRemove_cases {fs : Fs} {p q : Path} {c : Content}
    (h : (q, c) ∈ fsRemove fs p) : (q, c) ∈ fs ∧ q ≠ p := by
  unfold fsRemove at h
  rw [List.mem_filter] at h
  exact ⟨h.1, by simpa using h.2⟩

/-- Every name in the filesystem is no longer than the total of all name
lengths. -/
theorem name_le_sumNameLens {fs : Fs} {q : Path} {c : Content}
    (h : (q, c) ∈ fs) : q.2.length ≤ sumNameLens fs := by
  unfold sumNameLens
  apply List.single_le_sum (by intro x _; exact Nat.zero_le x)
  exact List.mem_map.mpr ⟨(q, c), h, rfl⟩

theorem freshTag_length (fs : Fs) : (freshTag fs).length = sumNameLens fs + 1 := by
  unfold freshTag
  rw [String.length_mk, List.length_replicate]

/-- A name built as `pre ++ freshTag fs ++ ext` differs from every name in
`fs` (it is strictly longer). -/
theorem fresh_name_ne {fs : Fs} {q : Path} {c : Content}
    (pre ext : String) (h : (q, c) ∈ fs) :
    q.2 ≠ pre ++ freshTag fs ++ ext := by
  intro he
  have h1 : q.2.length ≤ sumNameLens fs := name_le_sumNameLens h
  have h2 : (pre ++ freshTag fs ++ ext).length =
      pre.length + (sumNameLens fs + 1) + ext.length := by
    rw [String.length_append, String.length_append, freshTag_length]
  rw [he, h2] at h1
  omega

/-- Key uniqueness is preserved by `fsRename`. -/
theorem keysNodup_fsRename {fs : Fs} (src dst : Path)
    (h : (fs.map (fun e => e.1)).Nodup) :
    ((fsRename fs src dst).map (fun e => e.1)).Nodup := by
  unfold fsRename
  cases fsGet fs src with
  | none => exact h
  | some c =>
      rw [List.map_append, List.nodup_append]
      refine ⟨?_, by simp, ?_⟩
      · exact h.sublist ((List.filter_sublist fs).map (fun e => e.1))
      · intro a ha hb
        simp only [List.mem_map] at ha
        obtain ⟨e, he, rfl⟩ := ha
        rw [List.mem_filter] at he
        have hd : e.1 ≠ dst := by
          have := he.2
          simp only [decide_eq_true_eq] at this
          exact this.2
        simp at hb
        exact hd hb

theorem keysNodup_fsRemove {fs : Fs} (p : Path)
    (h : (fs.map (fun e => e.1)).Nodup) :
    ((fsRemove fs p).map (fun e => e.1)).Nodup := by
  unfold fsRemove
  exact h.sublist ((List.filter_sublist fs).map (fun e => e.1))

/-! ## Lemmas about the reversal heuristic -/

/-- `dedupFirst` keeps exactly the elements of its input (it is one concrete
membership-preserving instance of Python's unordered `list(set(...))`). -/
theorem mem_dedupFirst (l : List String) (x : String) :
    x ∈ dedupFirst l ↔ x ∈ l := by
  induction l with
  | nil => simp [dedupFirst]
  | cons d ds ih =>
      rw [dedupFirst]
      constructor
      · intro hx
        rcases List.mem_cons.mp hx with rfl | hx2
        · exact List.mem_cons_self _ _
        · exact List.mem_cons_of_mem _ (ih.mp (List.mem_filter.mp hx2).1)
      · intro hx
        rcases List.mem_cons.mp hx with rfl | hx2
        · exact List.mem_cons_self _ _
        · by_cases he : x = d
          · subst he
            exact List.mem_cons_self _ _
          · exact List.mem_cons_of_mem _
              (List.mem_filter.mpr ⟨ih.mpr hx2, by simp [he]⟩)

/-! ## Claim C1 -/

/-- Claim C1, counterexample: in the same-named-sibling branch of the
revert pass, the chosen rename target is the sibling's path, which exists
(here `("p", "Foo.hpp")` holding bytes `[2]`); the revert renames onto it
and its previous content is overwritten by `[1]`.  So a candidate whose
path already exists IS chosen as the rename target. -/
theorem c1_counterexample :
    fsExists [(("p", "foo.hpp"), [1]), (("p", "Foo.hpp"), [2])] ("p", "Foo.hpp") = true
    ∧ (revertLowercaseConversion dedupFirst
        [(("p", "foo.hpp"), [1]), (("p", "Foo.hpp"), [2])] "p").2
        = [(("p", "foo.hpp"), ("p", "Foo.hpp"))]
    ∧ fsGet (revertLowercaseConversion dedupFirst
        [(("p", "foo.hpp"), [1]), (("p", "Foo.hpp"), [2])] "p").1 ("p", "Foo.hpp")
        = some [1] := by
  decide

/-- Claim C1, amended: in the pattern-guess branch (no same-named sibling),
every candidate whose path already exists is skipped, so the chosen rename
target never exists; in the sibling branch the target is the sibling's own
existing path.  Stated for the pattern-guess branch. -/
theorem c1_amended (dedup : List String → List String) (fs : Fs)
    (d filename : String) (tgt : Path × Path)
    (hsim : similarFiles fs d filename = [])
    (h : (revertFile dedup fs d filename).2 = some tgt) :
    fsExists fs tgt.2 = false := by
  by_cases h1 : isCppHpp filename
  · by_cases h2 : filename = pyLower filename
    · cases hf : (dedup (potentialOriginalNames (splitext filename).1
          ((splitext filename).2.drop 1))).find? (fun c => !(fsExists fs (d, c))) with
      | none => simp [revertFile, h1, ← h2, hsim, hf] at h
      | some c =>
          have hfind := List.find?_some hf
          simp [revertFile, h1, ← h2, hsim, hf] at h
          rw [← h]
          simpa using hfind
    · simp [revertFile, h1, h2] at h
  · simp [revertFile, h1] at h

/-- Witness for `c1_amended`: a directory holding only `foo.hpp`; the
pattern branch picks `Foo.HPP`, and indeed no file exists there. -/
theorem c1_amended_witness :
    fsExists [(("q", "foo.hpp"), [3])] ("q", "Foo.HPP") = false :=
  c1_amended dedupFirst [(("q", "foo.hpp"), [3])] "q" "foo.hpp"
    ((("q", "foo.hpp"), ("q", "Foo.HPP"))) (by decide) (by decide)

/-! ## Claim C7 -/

/-- Claim C7, counterexample: for `123.hpp` every generated candidate is the
file's own name, which exists, so the revert pass finds no viable candidate;
the file is left untouched but the run's skipped list (and every other
summary category) stays empty — the miss is NOT reported as skipped. -/
theorem c7_counterexample :
    (convertToLowercase dedupFirst noFaults [(("v", "123.hpp"), [5])] "v" [] ["v"]).1
      = [(("v", "123.hpp"), [5])]
    ∧ (convertToLowercase dedupFirst noFaults
        [(("v", "123.hpp"), [5])] "v" [] ["v"]).2.2.1 = []
    ∧ (convertToLowercase dedupFirst noFaults
        [(("v", "123.hpp"), [5])] "v" [] ["v"]).2.2.2 = [] := by
  decide

/-- Claim C7, amended: when the revert pass finds no viable candidate the
entry is left untouched on disk, and it is not recorded in any summary
category (the revert path records only successful reverts; in particular a
miss never reaches the skipped list, which only the forward pass fills). -/
theorem c7_amended (dedup : List String → List String) (fs : Fs)
    (d filename : String)
    (h : (revertFile dedup fs d filename).2 = none) :
    (revertFile dedup fs d filename).1 = fs := by
  by_cases h1 : isCppHpp filename
  · by_cases h2 : filename = pyLower filename
    · cases hs : similarFiles fs d filename with
      | cons g gs => simp [revertFile, h1, ← h2, hs] at h
      | nil =>
          cases hf : (dedup (potentialOriginalNames (splitext filename).1
              ((splitext filename).2.drop 1))).find? (fun c => !(fsExists fs (d, c))) with
          | some c => simp [revertFile, h1, ← h2, hs, hf] at h
          | none => simp [revertFile, h1, ← h2, hs, hf]
    · simp [revertFile, h1, h2]
  · simp [revertFile, h1]

/-- Witness for `c7_amended` at the lone `123.hpp` directory. -/
theorem c7_amended_witness :
    (revertFile dedupFirst [(("w", "123.hpp"), [5])] "w" "123.hpp").1
      = [(("w", "123.hpp"), [5])] :=
  c7_amended dedupFirst [(("w", "123.hpp"), [5])] "w" "123.hpp" (by decide)

/-! ## Claim C9 -/

/-- Claim C9, counterexample: with a same-named sibling present the source
tries only the sibling (the transform candidates are never part of the
sequence), so the tried sequence differs from the spec's
sibling-followed-by-transforms sequence. -/
theorem c9_counterexample :
    candidateSequence dedupFirst
        (similarFiles [(("s", "foo.hpp"), [1]), (("s", "FOO.hpp"), [2])] "s" "foo.hpp")
        "foo" "hpp"
      ≠ specCandidateSequence
        (similarFiles [(("s", "foo.hpp"), [1]), (("s", "FOO.hpp"), [2])] "s" "foo.hpp")
        "foo" "hpp" := by
  decide

/-- Claim C9, amended: when a case-insensitively matching sibling exists it
is the sole candidate tried (the transforms are not attempted); otherwise
the candidates are the generated transform names — the four patterns in
order, each with the upper/title extension variants, plus the all-upper and
capitalized stems with the original extension — passed through an unordered
set, so only their membership (not their order) is determined; every target
chosen by the revert pass comes from this sequence. -/
theorem c9_amended :
    (∀ (dedup : List String → List String) (similar : List String)
        (name ext g : String) (rest : List String), similar = g :: rest →
        candidateSequence dedup similar name ext = [g])
    ∧ (∀ (dedup : List String → List String) (fs : Fs) (d filename : String)
        (tgt : Path × Path), (revertFile dedup fs d filename).2 = some tgt →
        tgt.2.1 = d ∧ tgt.2.2 ∈ candidateSequence dedup (similarFiles fs d filename)
          (splitext filename).1 ((splitext filename).2.drop 1))
    ∧ (∀ (dedup : List String → List String),
        (∀ (l : List String) (x : String), x ∈ dedup l ↔ x ∈ l) →
        ∀ (name ext x : String),
          x ∈ candidateSequence dedup [] name ext ↔ x ∈ potentialOriginalNames name ext) := by
  refine ⟨?_, ?_, ?_⟩
  · intro dedup similar name ext g rest hsim
    rw [hsim]
    rfl
  · intro dedup fs d filename tgt h
    by_cases h1 : isCppHpp filename
    · by_cases h2 : filename = pyLower filename
      · cases hs : similarFiles fs d filename with
        | cons g gs =>
            simp [revertFile, h1, ← h2, hs] at h
            rw [← h]
            exact ⟨rfl, by simp [candidateSequence]⟩
        | nil =>
            cases hf : (dedup (potentialOriginalNames (splitext filename).1
                ((splitext filename).2.drop 1))).find? (fun c => !(fsExists fs (d, c))) with
            | none => simp [revertFile, h1, ← h2, hs, hf] at h
            | some c =>
                simp [revertFile, h1, ← h2, hs, hf] at h
                rw [← h]
                exact ⟨rfl, by
                  simp only [candidateSequence]
                  exact List.mem_of_find?_eq_some hf⟩
      · simp [revertFile, h1, h2] at h
    · simp [revertFile, h1] at h
  · intro dedup hmem name ext x
    simp only [candidateSequence]
    exact hmem _ x

/-- Witness for `c9_amended`: the three parts applied at concrete inputs —
a sibling makes a singleton sequence, a concrete revert's target is in the
sequence, and with `dedupFirst` the pattern-branch sequence has exactly the
generated candidates as members. -/
theorem c9_amended_witness :
    candidateSequence dedupFirst ["X.hpp"] "x" "hpp" = ["X.hpp"]
    ∧ (("q2", "Foo.HPP") : Path).2 ∈ candidateSequence dedupFirst
        (similarFiles [(("q2", "foo.hpp"), [3])] "q2" "foo.hpp")
        (splitext "foo.hpp").1 ((splitext "foo.hpp").2.drop 1)
    ∧ ("FOO.hpp" ∈ candidateSequence dedupFirst [] "foo" "hpp"
        ↔ "FOO.hpp" ∈ potentialOriginalNames "foo" "hpp") :=
  ⟨c9_amended.1 dedupFirst ["X.hpp"] "x" "hpp" "X.hpp" [] rfl,
   (c9_amended.2.1 dedupFirst [(("q2", "foo.hpp"), [3])] "q2" "foo.hpp"
      ((("q2", "foo.hpp"), ("q2", "Foo.HPP"))) (by decide)).2,
   c9_amended.2.2 dedupFirst mem_dedupFirst "foo" "hpp" "FOO.hpp"⟩

/-! ## Claim C10 -/

/-- Claim C10, counterexample: a revert pass CAN touch a mixed-case file's
bytes — reverting `foo.hpp` onto its sibling `Foo.hpp` replaces the
sibling's content `[2]` with `[1]`, so `Foo.hpp` is not left byte-for-byte
unchanged (its name does survive). -/
theorem c10_counterexample :
    fsGet (revertLowercaseConversion dedupFirst
        [(("t", "foo.hpp"), [1]), (("t", "Foo.hpp"), [2])] "t").1 ("t", "Foo.hpp")
      ≠ fsGet [(("t", "foo.hpp"), [1]), (("t", "Foo.hpp"), [2])] ("t", "Foo.hpp")
    ∧ fsExists (revertLowercaseConversion dedupFirst
        [(("t", "foo.hpp"), [1]), (("t", "Foo.hpp"), [2])] "t").1 ("t", "Foo.hpp")
      = true := by
  decide

/-! ## Claim C2 -/

/-- Claim C2 (code bug, line 99): the alternate name is built from the loop
variable `lowercase_filename` left over from the collection pass — the
lowercase name of the LAST walked `.cpp`/`.hpp` file — not from the plan's
destination.  At this input the conflicted plan `Foo.hpp → foo.hpp` parks
the existing divergent `foo.hpp` under `zed_alt.cpp` (stem of the last
walked file `zed.cpp`), and no `foo_alt.hpp` is created. -/
theorem c2_code_bug :
    fsGet (convertToLowercase dedupFirst noFaults
        [(("d", "Foo.hpp"), [1]), (("d", "foo.hpp"), [2]), (("d", "zed.cpp"), [3])]
        "d" [] []).1 ("d", "zed_alt.cpp") = some [2]
    ∧ fsExists (convertToLowercase dedupFirst noFaults
        [(("d", "Foo.hpp"), [1]), (("d", "foo.hpp"), [2]), (("d", "zed.cpp"), [3])]
        "d" [] []).1 ("d", "foo_alt.hpp") = false
    ∧ (convertToLowercase dedupFirst noFaults
        [(("d", "Foo.hpp"), [1]), (("d", "foo.hpp"), [2]), (("d", "zed.cpp"), [3])]
        "d" [] []).2.1 = [(("d", "Foo.hpp"), ("d", "foo.hpp"))] := by
  decide

/-! ## Claim C3 -/

/-- Claim C3 (code bug, lines 41-56 and 276-292): supplying `--revert r/lib`
does not exclude `r/lib` from the forward walk of the same invocation — the
forward pass still lowercases `BAR.HPP` inside the revert directory (here
the revert itself touches nothing since `BAR.HPP` is not all-lowercase). -/
theorem c3_code_bug :
    (mainConvert dedupFirst noFaults [(("r/lib", "BAR.HPP"), [7])] "r" [] ["r/lib"]).2.1
      = [(("r/lib", "BAR.HPP"), ("r/lib", "bar.hpp"))]
    ∧ fsGet (mainConvert dedupFirst noFaults
        [(("r/lib", "BAR.HPP"), [7])] "r" [] ["r/lib"]).1 ("r/lib", "bar.hpp") = some [7]
    ∧ (mainConvert dedupFirst noFaults
        [(("r/lib", "BAR.HPP"), [7])] "r" [] ["r/lib"]).2.2.2 = [] := by
  decide

/-! ## Claim C5 -/

/-- Helper for C5: one fault-free apply step on the plan `Foo.hpp → foo.hpp`
when a byte-identical `foo.hpp` already exists: the backup is deleted
(byte length compared first, then content) and only the destination
remains. -/
theorem c5_apply_step (c : Content) :
    applyPlanF none false [(("m", "Foo.hpp"), c), (("m", "foo.hpp"), c)] "foo.hpp"
      ("m", "Foo.hpp") ("m", "foo.hpp")
    = ([(("m", "foo.hpp"), c)], some (("m", "Foo.hpp"), ("m", "foo.hpp")), none) := by
  have e1 : fsRename [(("m", "Foo.hpp"), c), (("m", "foo.hpp"), c)] ("m", "Foo.hpp")
      ("m", "temp_" ++ freshTag [(("m", "Foo.hpp"), c), (("m", "foo.hpp"), c)] ++ (splitext "Foo.hpp").2)
      = [(("m", "foo.hpp"), c), (("m", "temp_fffffffffffffff.hpp"), c)] := rfl
  have ex1 : fsExists [(("m", "foo.hpp"), c), (("m", "temp_fffffffffffffff.hpp"), c)] ("m", "foo.hpp") = true := rfl
  have e2 : fsRename [(("m", "foo.hpp"), c), (("m", "temp_fffffffffffffff.hpp"), c)] ("m", "foo.hpp")
      ("m", "backup_" ++ freshTag [(("m", "foo.hpp"), c), (("m", "temp_fffffffffffffff.hpp"), c)] ++ (splitext "foo.hpp").2)
      = [(("m", "temp_fffffffffffffff.hpp"), c), (("m", "backup_ffffffffffffffffffffffffffffffff.hpp"), c)] := rfl
  have e3 : fsRename [(("m", "temp_fffffffffffffff.hpp"), c), (("m", "backup_ffffffffffffffffffffffffffffffff.hpp"), c)]
      ("m", "temp_" ++ freshTag [(("m", "Foo.hpp"), c), (("m", "foo.hpp"), c)] ++ (splitext "Foo.hpp").2)
      ("m", "foo.hpp")
      = [(("m", "backup_ffffffffffffffffffffffffffffffff.hpp"), c), (("m", "foo.hpp"), c)] := rfl
  have hcond : fsSize [(("m", "backup_ffffffffffffffffffffffffffffffff.hpp"), c), (("m", "foo.hpp"), c)]
        ("m", "backup_" ++ freshTag [(("m", "foo.hpp"), c), (("m", "temp_fffffffffffffff.hpp"), c)] ++ (splitext "foo.hpp").2)
      = fsSize [(("m", "backup_ffffffffffffffffffffffffffffffff.hpp"), c), (("m", "foo.hpp"), c)] ("m", "foo.hpp")
      ∧ fsRead [(("m", "backup_ffffffffffffffffffffffffffffffff.hpp"), c), (("m", "foo.hpp"), c)]
        ("m", "backup_" ++ freshTag [(("m", "foo.hpp"), c), (("m", "temp_fffffffffffffff.hpp"), c)] ++ (splitext "foo.hpp").2)
      = fsRead [(("m", "backup_ffffffffffffffffffffffffffffffff.hpp"), c), (("m", "foo.hpp"), c)] ("m", "foo.hpp") := ⟨rfl, rfl⟩
  have e4 : fsRemove [(("m", "backup_ffffffffffffffffffffffffffffffff.hpp"), c), (("m", "foo.hpp"), c)]
      ("m", "backup_" ++ freshTag [(("m", "foo.hpp"), c), (("m", "temp_fffffffffffffff.hpp"), c)] ++ (splitext "foo.hpp").2)
      = [(("m", "foo.hpp"), c)] := rfl
  simp only [applyPlanF]
  rw [e1]
  simp only [ex1, if_true]
  rw [e2, e3]
  simp only [show ((none : Option FStep) = some FStep.tempRename) = False from by simp,
    show ((none : Option FStep) = some FStep.backupRename) = False from by simp,
    show ((none : Option FStep) = some FStep.finalRename) = False from by simp,
    show ((none : Option FStep) = some FStep.compareRead) = False from by simp,
    show ((none : Option FStep) = some FStep.altRename) = False from by simp,
    if_false]
  rw [if_pos hcond, e4]

/-- Helper for C5: the whole apply loop for the single collected plan. -/
theorem c5_apply_all (c : Content) :
    applyPlansFAux noFaults "foo.hpp" 0 [(("m", "Foo.hpp"), c), (("m", "foo.hpp"), c)]
      [(("m", "Foo.hpp"), ("m", "foo.hpp"))]
    = ([(("m", "foo.hpp"), c)], [(("m", "Foo.hpp"), ("m", "foo.hpp"))], []) := by
  simp only [applyPlansFAux, noFaults, c5_apply_step, Option.toList_some, Option.toList_none,
    List.nil_append, List.append_nil, List.singleton_append]

/-- Claim C5: given `Foo.hpp` and `foo.hpp` with identical byte content `c`
in the same directory, after forward normalization exactly one file
`foo.hpp` remains holding `c`, the byte-identical backup is deleted
(length compared first, then content — see `applyPlanF`), no `_alt` file is
created, and the plan is reported renamed with nothing skipped. -/
theorem c5_identical_collision (c : Content) :
    (convertToLowercase dedupFirst noFaults
        [(("m", "Foo.hpp"), c), (("m", "foo.hpp"), c)] "m" [] []).1
      = [(("m", "foo.hpp"), c)]
    ∧ (convertToLowercase dedupFirst noFaults
        [(("m", "Foo.hpp"), c), (("m", "foo.hpp"), c)] "m" [] []).2.1
      = [(("m", "Foo.hpp"), ("m", "foo.hpp"))]
    ∧ (convertToLowercase dedupFirst noFaults
        [(("m", "Foo.hpp"), c), (("m", "foo.hpp"), c)] "m" [] []).2.2.1 = [] := by
  simp only [convertToLowercase]
  rw [show (revertPhase dedupFirst [(("m", "Foo.hpp"), c), (("m", "foo.hpp"), c)] []).1
      = [(("m", "Foo.hpp"), c), (("m", "foo.hpp"), c)] from rfl]
  rw [show (collectAux "m" [] [(("m", "Foo.hpp"), c), (("m", "foo.hpp"), c)]).1
      = [(("m", "Foo.hpp"), ("m", "foo.hpp"))] from rfl]
  rw [show (collectAux "m" [] [(("m", "Foo.hpp"), c), (("m", "foo.hpp"), c)]).2
      = some "foo.hpp" from rfl]
  simp only [Option.getD_some]
  rw [c5_apply_all]
  exact ⟨rfl, rfl, rfl⟩

/-! ## Lemmas about the collection pass -/

/-- Every collected plan has a walked (non-excluded) in-scope source whose
name is not already lowercase, and its destination is the lowercase name in
the same directory. -/
theorem collectAux_mem {root : String} {ex : List String} :
    ∀ {fs : Fs} {pd : Path × Path}, pd ∈ (collectAux root ex fs).1 →
      walkedDir root ex pd.1.1 = true ∧ isCppHpp pd.1.2 = true
      ∧ pd.1.2 ≠ pyLower pd.1.2 ∧ pd.2 = (pd.1.1, pyLower pd.1.2) := by
  intro fs
  induction fs with
  | nil => intro pd h; simp [collectAux] at h
  | cons e rest ih =>
      intro pd h
      by_cases h1 : walkedDir root ex e.1.1 = true
      · by_cases h2 : isCppHpp e.1.2 = true
        · simp only [collectAux, h1, h2, if_true] at h
          rcases List.mem_append.mp h with hl | hr
          · by_cases h3 : e.1.2 = pyLower e.1.2
            · rw [if_neg (not_not_intro h3)] at hl
              exact absurd hl (List.not_mem_nil pd)
            · rw [if_pos h3] at hl
              rcases List.mem_singleton.mp hl with rfl
              exact ⟨h1, h2, h3, rfl⟩
          · exact ih hr
        · simp only [collectAux, h1, h2, if_true, if_false] at h
          exact ih h
      · simp only [collectAux, h1, if_false] at h
        exact ih h

/-- Completeness of the collection pass: every walked, in-scope,
not-yet-lowercase file gives rise to its plan. -/
theorem collectAux_complete {root : String} {ex : List String} :
    ∀ {fs : Fs} {q : Path} {c : Content}, (q, c) ∈ fs →
      walkedDir root ex q.1 = true → isCppHpp q.2 = true → q.2 ≠ pyLower q.2 →
      (q, (q.1, pyLower q.2)) ∈ (collectAux root ex fs).1 := by
  intro fs
  induction fs with
  | nil => intro q c h; exact absurd h (List.not_mem_nil _)
  | cons e rest ih =>
      intro q c hmem hw hcpp hne
      rcases List.mem_cons.mp hmem with heq | hr
      · have he1 : e.1 = q := by rw [← heq]
        simp only [collectAux, he1, hw, hcpp, if_true]
        refine List.mem_append_left _ ?_
        rw [if_pos hne]
        exact List.mem_singleton.mpr rfl
      · by_cases h1 : walkedDir root ex e.1.1 = true
        · by_cases h2 : isCppHpp e.1.2 = true
          · simp only [collectAux, h1, h2, if_true]
            exact List.mem_append_right _ (ih hr hw hcpp hne)
          · simp only [collectAux, h1, h2, if_true, if_false]
            exact ih hr hw hcpp hne
        · simp only [collectAux, h1, if_false]
          exact ih hr hw hcpp hne

/-- The sources of the collected plans form a sublist of the walked keys. -/
theorem collectAux_srcs_sublist {root : String} {ex : List String} :
    ∀ {fs : Fs},
      ((collectAux root ex fs).1.map (fun pd => pd.1)).Sublist
        (fs.map (fun e => e.1)) := by
  intro fs
  induction fs with
  | nil => simp [collectAux]
  | cons e rest ih =>
      by_cases h1 : walkedDir root ex e.1.1 = true
      · by_cases h2 : isCppHpp e.1.2 = true
        · simp only [collectAux, h1, h2, if_true]
          by_cases h3 : e.1.2 = pyLower e.1.2
          · rw [if_neg (not_not_intro h3)]
            simp only [List.nil_append, List.map_cons]
            exact ih.cons _
          · rw [if_pos h3]
            simp only [List.singleton_append, List.map_cons]
            exact ih.cons₂ _
        · simp only [collectAux, h1, h2, if_true, if_false, List.map_cons]
          exact ih.cons _
      · simp only [collectAux, h1, if_false, List.map_cons]
        exact ih.cons _

/-- The final value of the `lowercase_filename` loop variable is always an
already-lowercase string. -/
theorem collectAux_stale {root : String} {ex : List String} :
    ∀ {fs : Fs} {s : String}, (collectAux root ex fs).2 = some s →
      pyLower s = s := by
  intro fs
  induction fs with
  | nil => intro s h; simp [collectAux] at h
  | cons e rest ih =>
      intro s h
      by_cases h1 : walkedDir root ex e.1.1 = true
      · by_cases h2 : isCppHpp e.1.2 = true
        · simp only [collectAux, h1, h2, if_true] at h
          cases ht : (collectAux root ex rest).2 with
          | none =>
              rw [ht] at h
              simp only [Option.getD_none, Option.some.injEq] at h
              rw [← h]
              exact pyLower_idem e.1.2
          | some t =>
              rw [ht] at h
              simp only [Option.getD_some, Option.some.injEq] at h
              rw [← h]
              exact ih ht
        · simp only [collectAux, h1, h2, if_true, if_false] at h
          exact ih h
      · simp only [collectAux, h1, if_false] at h
        exact ih h

/-- On a tree whose walked in-scope names are all lowercase, the collection
pass yields no plans. -/
theorem collectAux_nil_of_norm {root : String} {ex : List String} :
    ∀ {fs : Fs},
      (∀ q c, (q, c) ∈ fs → walkedDir root ex q.1 = true →
        isCppHpp q.2 = true → pyLower q.2 = q.2) →
      (collectAux root ex fs).1 = [] := by
  intro fs
  induction fs with
  | nil => intro _; simp [collectAux]
  | cons e rest ih =>
      intro hn
      have htail : (collectAux root ex rest).1 = [] :=
        ih (fun q c hq => hn q c (List.mem_cons_of_mem e hq))
      by_cases h1 : walkedDir root ex e.1.1 = true
      · by_cases h2 : isCppHpp e.1.2 = true
        · simp only [collectAux, h1, h2, if_true]
          rw [if_neg (not_not_intro ((hn e.1 e.2 (by simp) h1 h2).symm)), htail]
          simp
        · simp only [collectAux, h1, h2, if_true, if_false]
          exact htail
      · simp only [collectAux, h1, if_false]
        exact htail

/-! ## Lookup lemmas for renames -/

/-- Dropping the entries keyed `src` or `dst` does not change a lookup at a
third key. -/
theorem find?_filter_ne (src dst q : Path) (h1 : q ≠ src) (h2 : q ≠ dst) :
    ∀ (l : List (Path × Content)),
      (l.filter (fun e => e.1 ≠ src ∧ e.1 ≠ dst)).find? (fun e => e.1 == q)
        = l.find? (fun e => e.1 == q) := by
  intro l
  induction l with
  | nil => rfl
  | cons a as iha =>
      rw [List.filter_cons]
      by_cases hk : a.1 ≠ src ∧ a.1 ≠ dst
      · rw [if_pos (by simpa using hk)]
        cases hb : (a.1 == q) with
        | true => simp only [List.find?_cons, hb]
        | false =>
            simp only [List.find?_cons, hb]
            exact iha
      · rw [if_neg (by simpa using hk)]
        have hnq : (a.1 == q) = false := by
          rw [not_and_or, not_not, not_not] at hk
          simp only [beq_eq_false_iff_ne, ne_eq]
          rcases hk with hk | hk
          · rw [hk]
            intro he
            exact h1 he.symm
          · rw [hk]
            intro he
            exact h2 he.symm
        simp only [List.find?_cons, hnq]
        exact iha

theorem fsGet_fsRename_of_ne (fs : Fs) (src dst q : Path)
    (h1 : q ≠ src) (h2 : q ≠ dst) :
    fsGet (fsRename fs src dst) q = fsGet fs q := by
  unfold fsRename
  cases hg : fsGet fs src with
  | none => rfl
  | some c =>
      have hdq : (dst == q) = false := by
        simp only [beq_eq_false_iff_ne, ne_eq]
        intro he
        exact h2 he.symm
      unfold fsGet
      rw [List.find?_append, find?_filter_ne src dst q h1 h2 fs]
      cases hf : fs.find? (fun e => e.1 == q) with
      | some a => simp
      | none => simp [List.find?_cons, hdq]

theorem fsGet_fsRename_dst (fs : Fs) (src dst : Path) (c : Content)
    (hg : fsGet fs src = some c) :
    fsGet (fsRename fs src dst) dst = some c := by
  unfold fsRename
  rw [hg]
  unfold fsGet
  rw [List.find?_append]
  have hfil : (fs.filter (fun e => e.1 ≠ src ∧ e.1 ≠ dst)).find?
      (fun e => e.1 == dst) = none := by
    rw [List.find?_eq_none]
    intro e he
    have := (List.mem_filter.mp he).2
    simp only [decide_eq_true_eq] at this
    simp [this.2]
  rw [hfil]
  simp [List.find?_cons]

/-! ## Preservation of unrelated directories by the apply pass -/

theorem compensate_preserves {cf : Bool} {fs : Fs} {tmp src q : Path}
    {c : Content} (hq : (q, c) ∈ fs) (h1 : q ≠ tmp) (h2 : q ≠ src) :
    (q, c) ∈ compensate cf fs tmp src := by
  unfold compensate
  split
  · exact mem_fsRename_of_ne tmp src hq h1 h2
  · exact hq

/-- Whatever fault is injected, a plan only ever touches paths inside the
source's and destination's directories. -/
theorem applyPlanF_preserves_other_dirs (fault : Option FStep) (cf : Bool)
    (fs : Fs) (low : String) (s d q : Path) (c : Content)
    (hq : (q, c) ∈ fs) (h1 : q.1 ≠ s.1) (h2 : q.1 ≠ d.1) :
    (q, c) ∈ (applyPlanF fault cf fs low s d).1 := by
  have hs : q ≠ s := fun hh => h1 (congrArg Prod.fst hh)
  have hd : q ≠ d := fun hh => h2 (congrArg Prod.fst hh)
  have hs2 : ∀ x : String, q ≠ (s.1, x) := fun x hh => h1 (by rw [hh])
  have hd2 : ∀ x : String, q ≠ (d.1, x) := fun x hh => h2 (by rw [hh])
  simp only [applyPlanF]
  split_ifs
  all_goals
    repeat'
      first
        | apply compensate_preserves
        | apply mem_fsRemove_of_ne
        | apply mem_fsRename_of_ne
  all_goals
    first
      | exact hq
      | exact hs
      | exact hd
      | exact hs2 _
      | exact hd2 _

theorem applyPlansFAux_preserves_dir (faults : Nat → Option FStep × Bool)
    (low : String) :
    ∀ (plans : List (Path × Path)) (i : Nat) (fs : Fs) (q : Path) (c : Content),
      (q, c) ∈ fs → (∀ pd ∈ plans, pd.1.1 ≠ q.1 ∧ pd.2.1 ≠ q.1) →
      (q, c) ∈ (applyPlansFAux faults low i fs plans).1 := by
  intro plans
  induction plans with
  | nil => intro i fs q c hq _; exact hq
  | cons p rest ih =>
      intro i fs q c hq hp
      simp only [applyPlansFAux]
      apply ih
      · exact applyPlanF_preserves_other_dirs _ _ _ _ _ _ _ _ hq
          (Ne.symm (hp p (by simp)).1) (Ne.symm (hp p (by simp)).2)
      · intro pd hpd
        exact hp pd (List.mem_cons_of_mem p hpd)

/-! ## Claim C8 -/

/-- Claim C8: a file whose containing directory has any exclusion entry as a
raw string prefix never appears as a plan source, and the whole forward pass
leaves it untouched.  The prefix test is plain `startswith`, so excluding
`/src/lib` also shields `/src/libfoo` (see the witness). -/
theorem c8_exclusion (dedup : List String → List String) (fs : Fs)
    (root : String) (ex : List String) (e d name : String) (c : Content)
    (he : e ∈ ex) (hpre : strStartsWith d e = true)
    (hmem : ((d, name), c) ∈ fs) :
    (∀ pd ∈ (collectAux root ex fs).1, pd.1.1 ≠ d)
    ∧ ((d, name), c) ∈ (convertToLowercase dedup noFaults fs root ex []).1 := by
  have hplan : ∀ pd ∈ (collectAux root ex fs).1, pd.1.1 ≠ d := by
    intro pd hpd heq
    have hw := (collectAux_mem hpd).1
    unfold walkedDir at hw
    rw [Bool.and_eq_true] at hw
    have hno := hw.2
    rw [Bool.not_eq_true', List.any_eq_false] at hno
    exact hno e he (by rw [heq, hpre])
  refine ⟨hplan, ?_⟩
  show ((d, name), c) ∈ (applyPlansFAux noFaults
      ((collectAux root ex fs).2.getD "") 0 fs (collectAux root ex fs).1).1
  apply applyPlansFAux_preserves_dir
  · exact hmem
  · intro pd hpd
    refine ⟨hplan pd hpd, ?_⟩
    have hdst := (collectAux_mem hpd).2.2.2
    rw [hdst]
    exact hplan pd hpd

/-- Witness for `c8_exclusion`: excluding `/src/lib` also protects
`/src/libfoo/FOO.hpp` from the forward pass. -/
theorem c8_exclusion_witness :
    ((("/src/libfoo", "FOO.hpp") : Path), ([9] : Content))
      ∈ (convertToLowercase dedupFirst noFaults
          [((("/src/libfoo", "FOO.hpp") : Path), ([9] : Content))]
          "/src" ["/src/lib"] []).1 :=
  (c8_exclusion dedupFirst [((("/src/libfoo", "FOO.hpp") : Path), ([9] : Content))]
    "/src" ["/src/lib"] "/src/lib" "/src/libfoo" "FOO.hpp" [9]
    (by decide) (by decide) (by decide)).2

/-! ## Claim C6 -/

theorem fsExists_of_fsGet {fs : Fs} {p : Path} {c : Content}
    (h : fsGet fs p = some c) : fsExists fs p = true := by
  unfold fsGet at h
  unfold fsExists
  cases hf : fs.find? (fun e => e.1 == p) with
  | none => rw [hf] at h; simp at h
  | some a => rfl

/-- Each plan application produces exactly one outcome: a renamed entry or a
skipped entry, never both, never neither. -/
theorem applyPlanF_one_outcome (f : Option FStep) (cf : Bool) (fs : Fs)
    (low : String) (s d : Path) :
    (applyPlanF f cf fs low s d).2.1.toList.length
      + (applyPlanF f cf fs low s d).2.2.toList.length = 1 := by
  simp only [applyPlanF]
  split_ifs <;> rfl

/-- The loop records one outcome per plan, whatever faults occur — no
per-file failure terminates the batch. -/
theorem applyPlansFAux_counts (faults : Nat → Option FStep × Bool)
    (low : String) :
    ∀ (plans : List (Path × Path)) (i : Nat) (fs : Fs),
      (applyPlansFAux faults low i fs plans).2.1.length
        + (applyPlansFAux faults low i fs plans).2.2.length = plans.length := by
  intro plans
  induction plans with
  | nil => intro i fs; rfl
  | cons p rest ih =>
      intro i fs
      simp only [applyPlansFAux, List.length_append]
      have h1 := applyPlanF_one_outcome (faults i).1 (faults i).2 fs low p.1 p.2
      have h2 := ih (i + 1)
        (applyPlanF (faults i).1 (faults i).2 fs low p.1 p.2).1
      simp only [List.length_cons]
      omega

/-- A faulted plan's skipped entry is the plan's source path paired with the
fault's error description. -/
theorem applyPlanF_skip_shape (f : FStep) (cf : Bool) (fs : Fs)
    (low : String) (s d : Path) (ps : Path × String)
    (h : (applyPlanF (some f) cf fs low s d).2.2 = some ps) :
    ps = (s, errMsg f) := by
  simp only [applyPlanF] at h
  split_ifs at h with h1 h2 h3 h4 h5 h6 h7 h8
  all_goals
    first
      | (injection h1 with h1
         rw [h1]
         exact (Option.some.inj (show some (s, errMsg FStep.tempRename) = some ps from h)).symm)
      | (injection h3 with h3
         rw [h3]
         exact (Option.some.inj (show some (s, errMsg FStep.backupRename) = some ps from h)).symm)
      | (injection h4 with h4
         rw [h4]
         exact (Option.some.inj (show some (s, errMsg FStep.finalRename) = some ps from h)).symm)
      | (injection h5 with h5
         rw [h5]
         exact (Option.some.inj (show some (s, errMsg FStep.compareRead) = some ps from h)).symm)
      | (injection h7 with h7
         rw [h7]
         exact (Option.some.inj (show some (s, errMsg FStep.altRename) = some ps from h)).symm)
      | (injection h8 with h8
         rw [h8]
         exact (Option.some.inj (show some (s, errMsg FStep.finalRename) = some ps from h)).symm)
      | exact Option.noConfusion
          (show (none : Option (Path × String)) = some ps from h)

/-- A failing compensation never suppresses the recorded failure: the
skipped entry is the same whether or not the compensating rename works. -/
theorem applyPlanF_skip_indep (f : FStep) (fs : Fs) (low : String)
    (s d : Path) :
    (applyPlanF (some f) true fs low s d).2.2
      = (applyPlanF (some f) false fs low s d).2.2 := by
  simp only [applyPlanF]
  split_ifs <;> rfl

/-- When the final rename onto the destination raises and compensation
works, the source file is restored with its original bytes. -/
theorem applyPlanF_compensation_restores (fs : Fs) (low : String)
    (s d : Path) (c0 : Content) (hg : fsGet fs s = some c0)
    (hd : d.2.length ≤ sumNameLens fs) :
    fsGet (applyPlanF (some FStep.finalRename) false fs low s d).1 s
      = some c0 := by
  have htlen : sumNameLens fs
      < ("temp_" ++ freshTag fs ++ (splitext s.2).2).length := by
    rw [String.length_append, String.length_append, freshTag_length]
    omega
  have htmpd : ((s.1, "temp_" ++ freshTag fs ++ (splitext s.2).2) : Path) ≠ d := by
    intro hh
    rw [← hh] at hd
    have h2 : ("temp_" ++ freshTag fs ++ (splitext s.2).2).length
        ≤ sumNameLens fs := hd
    omega
  have f1 : fsGet (fsRename fs s (s.1, "temp_" ++ freshTag fs ++ (splitext s.2).2))
      (s.1, "temp_" ++ freshTag fs ++ (splitext s.2).2) = some c0 :=
    fsGet_fsRename_dst fs s _ c0 hg
  have hmem1 : (((s.1, "temp_" ++ freshTag fs ++ (splitext s.2).2) : Path), c0)
      ∈ fsRename fs s (s.1, "temp_" ++ freshTag fs ++ (splitext s.2).2) :=
    fsGet_eq_some_mem f1
  simp only [applyPlanF,
    show (some FStep.finalRename = some FStep.tempRename) = False from by simp,
    show (some FStep.finalRename = some FStep.backupRename) = False from by simp,
    show (some FStep.finalRename = some FStep.finalRename) = True from by simp,
    if_false, if_true]
  by_cases hex : fsExists
      (fsRename fs s (s.1, "temp_" ++ freshTag fs ++ (splitext s.2).2)) d = true
  · rw [if_pos hex]
    have htmpbk : ((s.1, "temp_" ++ freshTag fs ++ (splitext s.2).2) : Path)
        ≠ (d.1, "backup_"
            ++ freshTag (fsRename fs s (s.1, "temp_" ++ freshTag fs ++ (splitext s.2).2))
            ++ (splitext d.2).2) :=
      fun hh => fresh_name_ne "backup_" (splitext d.2).2 hmem1
        (congrArg Prod.snd hh)
    have f2 : fsGet (fsRename
        (fsRename fs s (s.1, "temp_" ++ freshTag fs ++ (splitext s.2).2)) d
        (d.1, "backup_"
          ++ freshTag (fsRename fs s (s.1, "temp_" ++ freshTag fs ++ (splitext s.2).2))
          ++ (splitext d.2).2))
        (s.1, "temp_" ++ freshTag fs ++ (splitext s.2).2) = some c0 := by
      rw [fsGet_fsRename_of_ne _ _ _ _ htmpd htmpbk]
      exact f1
    unfold compensate
    rw [if_pos ⟨fsExists_of_fsGet f2, rfl⟩]
    exact fsGet_fsRename_dst _ _ s c0 f2
  · rw [if_neg hex]
    unfold compensate
    rw [if_pos ⟨fsExists_of_fsGet f1, rfl⟩]
    exact fsGet_fsRename_dst _ _ s c0 f1

/-- Claim C6: per-plan faults are contained — (1) the loop yields exactly one
outcome per plan whatever faults and compensation failures occur, so no
failure terminates the batch; (2) a faulted plan is recorded as skipped with
its source path and the fault's error description; (3) a failing
compensation never suppresses the recorded failure; (4) when the rename
onto the destination raises, the intermediate-named file is renamed back to
the original source path. -/
theorem c6_failure_containment :
    (∀ (faults : Nat → Option FStep × Bool) (low : String)
        (plans : List (Path × Path)) (i : Nat) (fs : Fs),
        (applyPlansFAux faults low i fs plans).2.1.length
          + (applyPlansFAux faults low i fs plans).2.2.length = plans.length)
    ∧ (∀ (f : FStep) (cf : Bool) (fs : Fs) (low : String) (s d : Path)
        (ps : Path × String),
        (applyPlanF (some f) cf fs low s d).2.2 = some ps →
        ps = (s, errMsg f))
    ∧ (∀ (f : FStep) (fs : Fs) (low : String) (s d : Path),
        (applyPlanF (some f) true fs low s d).2.2
          = (applyPlanF (some f) false fs low s d).2.2)
    ∧ (∀ (fs : Fs) (low : String) (s d : Path) (c0 : Content),
        fsGet fs s = some c0 → d.2.length ≤ sumNameLens fs →
        fsGet (applyPlanF (some FStep.finalRename) false fs low s d).1 s
          = some c0) :=
  ⟨fun faults low plans i fs => applyPlansFAux_counts faults low plans i fs,
   fun f cf fs low s d ps h => applyPlanF_skip_shape f cf fs low s d ps h,
   fun f fs low s d => applyPlanF_skip_indep f fs low s d,
   fun fs low s d c0 hg hd =>
     applyPlanF_compensation_restores fs low s d c0 hg hd⟩

/-- Witness for `c6_failure_containment`: a two-plan batch where the first
plan faults still yields two outcomes; a concrete faulted plan is recorded
as `(source, message)`; and a failed final rename is compensated, restoring
the source bytes. -/
theorem c6_failure_containment_witness :
    (applyPlansFAux (fun _ => (some FStep.tempRename, true)) "a.hpp" 0
        [(("y", "A.hpp"), [1]), (("y", "B.cpp"), [2])]
        [(("y", "A.hpp"), ("y", "a.hpp")), (("y", "B.cpp"), ("y", "b.cpp"))]).2.1.length
      + (applyPlansFAux (fun _ => (some FStep.tempRename, true)) "a.hpp" 0
        [(("y", "A.hpp"), [1]), (("y", "B.cpp"), [2])]
        [(("y", "A.hpp"), ("y", "a.hpp")), (("y", "B.cpp"), ("y", "b.cpp"))]).2.2.length = 2
    ∧ ((("y", "A.hpp") : Path), errMsg FStep.tempRename)
        = ((("y", "A.hpp") : Path), errMsg FStep.tempRename)
    ∧ fsGet (applyPlanF (some FStep.finalRename) false
        [(("y", "A.hpp"), [1]), (("y", "a.hpp"), [2])] "a.hpp"
        ("y", "A.hpp") ("y", "a.hpp")).1 ("y", "A.hpp") = some [1] :=
  ⟨c6_failure_containment.1 (fun _ => (some FStep.tempRename, true)) "a.hpp"
      [(("y", "A.hpp"), ("y", "a.hpp")), (("y", "B.cpp"), ("y", "b.cpp"))] 0
      [(("y", "A.hpp"), [1]), (("y", "B.cpp"), [2])],
   c6_failure_containment.2.1 FStep.tempRename true
      [(("y", "A.hpp"), [1]), (("y", "B.cpp"), [2])] "a.hpp"
      ("y", "A.hpp") ("y", "a.hpp") (("y", "A.hpp"), errMsg FStep.tempRename)
      (by decide),
   c6_failure_containment.2.2.2 [(("y", "A.hpp"), [1]), (("y", "a.hpp"), [2])]
      "a.hpp" ("y", "A.hpp") ("y", "a.hpp") [1] (by decide) (by decide)⟩

/-! ## Claim C10: amended direction -/

theorem fsRename_none {fs : Fs} {src : Path} (dst : Path)
    (h : fsGet fs src = none) : fsRename fs src dst = fs := by
  unfold fsRename
  rw [h]

/-- Processing one file in revert mode keeps every uppercase-containing
name present (possibly with new content, when it is the sibling target). -/
theorem revertFile_preserves_upper (dedup : List String → List String)
    (fs : Fs) (d g : String) (p : Path)
    (hp : p.2 ≠ pyLower p.2) (hmem : ∃ c, (p, c) ∈ fs) :
    ∃ c, (p, c) ∈ (revertFile dedup fs d g).1 := by
  obtain ⟨c, hc⟩ := hmem
  by_cases h1 : isCppHpp g
  · by_cases h2 : g = pyLower g
    · have hpg : p ≠ (d, g) := fun hh => hp (by rw [hh]; exact h2)
      have hptmp : p ≠ (d, "temp_" ++ freshTag fs ++ (splitext g).2) :=
        fun hh => fresh_name_ne "temp_" (splitext g).2 hc (congrArg Prod.snd hh)
      have hc1 : (p, c) ∈ fsRename fs (d, g)
          (d, "temp_" ++ freshTag fs ++ (splitext g).2) :=
        mem_fsRename_of_ne _ _ hc hpg hptmp
      cases hs : similarFiles fs d g with
      | cons sib rest =>
          simp only [revertFile, h1, ← h2, hs, if_pos rfl, if_true]
          by_cases hps : p = (d, sib)
          · cases hg2 : fsGet (fsRename fs (d, g)
                (d, "temp_" ++ freshTag fs ++ (splitext g).2))
                (d, "temp_" ++ freshTag fs ++ (splitext g).2) with
            | none =>
                refine ⟨c, ?_⟩
                rw [fsRename_none _ hg2]
                exact hc1
            | some c0 =>
                refine ⟨c0, ?_⟩
                rw [hps]
                exact mem_fsRename_dst _ hg2
          · exact ⟨c, mem_fsRename_of_ne _ _ hc1 hptmp hps⟩
      | nil =>
          cases hf : (dedup (potentialOriginalNames (splitext g).1
              ((splitext g).2.drop 1))).find? (fun x => !(fsExists fs (d, x))) with
          | none =>
              simp only [revertFile, h1, ← h2, hs, if_pos rfl, if_true, hf]
              exact ⟨c, hc⟩
          | some cand =>
              have hfex : fsExists fs (d, cand) = false := by
                have := List.find?_some hf
                rwa [Bool.not_eq_true'] at this
              have hptgt : p ≠ (d, cand) := by
                intro hh
                have hpe : fsExists fs p = true := (fsExists_iff fs p).mpr ⟨c, hc⟩
                rw [hh, hfex] at hpe
                exact Bool.false_ne_true hpe
              simp only [revertFile, h1, ← h2, hs, if_pos rfl, if_true, hf]
              exact ⟨c, mem_fsRename_of_ne _ _ hc1 hptmp hptgt⟩
    · simp only [revertFile, h1, h2, if_true, if_false]
      exact ⟨c, hc⟩
  · simp only [revertFile, h1, if_false]
    exact ⟨c, hc⟩

/-- A recorded revert always has the processed all-lowercase file as its
source. -/
theorem revertFile_src_lower (dedup : List String → List String)
    (fs : Fs) (d g : String) (pr : Path × Path)
    (h : (revertFile dedup fs d g).2 = some pr) :
    pr.1 = (d, g) ∧ g = pyLower g := by
  by_cases h1 : isCppHpp g
  · by_cases h2 : g = pyLower g
    · cases hs : similarFiles fs d g with
      | cons sib rest =>
          simp only [revertFile, h1, ← h2, hs, if_pos rfl, if_true,
            Option.some.injEq] at h
          rw [← h]
          exact ⟨rfl, h2⟩
      | nil =>
          cases hf : (dedup (potentialOriginalNames (splitext g).1
              ((splitext g).2.drop 1))).find? (fun x => !(fsExists fs (d, x))) with
          | none => simp [revertFile, h1, ← h2, hs, hf] at h
          | some cand =>
              simp only [revertFile, h1, ← h2, hs, if_pos rfl, if_true, hf,
                Option.some.injEq] at h
              rw [← h]
              exact ⟨rfl, h2⟩
    · simp [revertFile, h1, h2] at h
  · simp [revertFile, h1] at h

theorem revertDirFiles_preserves_upper (dedup : List String → List String)
    (d : String) :
    ∀ (gs : List String) (fs : Fs) (p : Path), p.2 ≠ pyLower p.2 →
      (∃ c, (p, c) ∈ fs) → ∃ c, (p, c) ∈ (revertDirFiles dedup fs d gs).1 := by
  intro gs
  induction gs with
  | nil => intro fs p _ h; exact h
  | cons g rest ih =>
      intro fs p hp hmem
      exact ih _ p hp (revertFile_preserves_upper dedup fs d g p hp hmem)

theorem revertDirFiles_srcs_lower (dedup : List String → List String)
    (d : String) :
    ∀ (gs : List String) (fs : Fs) (pr : Path × Path),
      pr ∈ (revertDirFiles dedup fs d gs).2 → pr.1.2 = pyLower pr.1.2 := by
  intro gs
  induction gs with
  | nil => intro fs pr h; exact absurd h (List.not_mem_nil _)
  | cons g rest ih =>
      intro fs pr h
      simp only [revertDirFiles] at h
      rcases List.mem_append.mp h with hl | hr
      · cases hrev : (revertFile dedup fs d g).2 with
        | none => rw [hrev] at hl; exact absurd hl (List.not_mem_nil _)
        | some pr0 =>
            rw [hrev] at hl
            have heq : pr = pr0 := List.mem_singleton.mp hl
            have hsrc := revertFile_src_lower dedup fs d g pr0 hrev
            rw [heq, hsrc.1]
            exact hsrc.2
      · exact ih _ pr hr

theorem revertDirsGo_preserves_upper (dedup : List String → List String) :
    ∀ (ds : List String) (fs : Fs) (p : Path), p.2 ≠ pyLower p.2 →
      (∃ c, (p, c) ∈ fs) → ∃ c, (p, c) ∈ (revertDirsGo dedup fs ds).1 := by
  intro ds
  induction ds with
  | nil => intro fs p _ h; exact h
  | cons d rest ih =>
      intro fs p hp hmem
      exact ih _ p hp (revertDirFiles_preserves_upper dedup d _ fs p hp hmem)

theorem revertDirsGo_srcs_lower (dedup : List String → List String) :
    ∀ (ds : List String) (fs : Fs) (pr : Path × Path),
      pr ∈ (revertDirsGo dedup fs ds).2 → pr.1.2 = pyLower pr.1.2 := by
  intro ds
  induction ds with
  | nil => intro fs pr h; exact absurd h (List.not_mem_nil _)
  | cons d rest ih =>
      intro fs pr h
      simp only [revertDirsGo] at h
      rcases List.mem_append.mp h with hl | hr
      · exact revertDirFiles_srcs_lower dedup d _ fs pr hl
      · exact ih _ pr hr

/-- Claim C10, amended: a revert pass never renames away a file whose name
contains an uppercase character — such files are never reversal sources
(every recorded source is all-lowercase) and their names survive the pass —
but their content may change (see `c10_counterexample`). -/
theorem c10_amended (dedup : List String → List String) (fs : Fs)
    (root : String) (p : Path)
    (hp : p.2 ≠ pyLower p.2) (hmem : ∃ c, (p, c) ∈ fs) :
    (∃ c, (p, c) ∈ (revertLowercaseConversion dedup fs root).1)
    ∧ ∀ pr ∈ (revertLowercaseConversion dedup fs root).2,
        pr.1.2 = pyLower pr.1.2 := by
  constructor
  · exact revertDirsGo_preserves_upper dedup _ fs p hp hmem
  · intro pr hpr
    exact revertDirsGo_srcs_lower dedup _ fs pr hpr

/-- Witness for `c10_amended`: after reverting a directory holding
`foo.hpp` and its sibling `Foo.hpp`, the name `Foo.hpp` still exists. -/
theorem c10_amended_witness :
    ∃ c, ((("t2", "Foo.hpp") : Path), c)
      ∈ (revertLowercaseConversion dedupFirst
          [(("t2", "foo.hpp"), [1]), (("t2", "Foo.hpp"), [2])] "t2").1 :=
  (c10_amended dedupFirst [(("t2", "foo.hpp"), [1]), (("t2", "Foo.hpp"), [2])]
    "t2" ("t2", "Foo.hpp") (by decide) ⟨[2], by decide⟩).1

/-! ## Claim C4: idempotence of the forward pass -/

theorem nf_temp : ((none : Option FStep) = some FStep.tempRename) = False := by simp

theorem nf_backup : ((none : Option FStep) = some FStep.backupRename) = False := by simp

theorem nf_final : ((none : Option FStep) = some FStep.finalRename) = False := by simp

theorem nf_compare : ((none : Option FStep) = some FStep.compareRead) = False := by simp

theorem nf_alt : ((none : Option FStep) = some FStep.altRename) = False := by simp

/-- A fault-free plan application leaves every binding alone whose path is
not the plan's source, destination or `_alt` path (the temp and backup
names are fresh, so they cannot collide with it either). -/
theorem applyPlan_preserves (fs : Fs) (low : String) (s d q : Path)
    (c : Content) (hq : (q, c) ∈ fs) (hqs : q ≠ s) (hqd : q ≠ d)
    (hqa : q ≠ altPath low d) :
    (q, c) ∈ (applyPlanF none false fs low s d).1 := by
  have htmp : q ≠ (s.1, "temp_" ++ freshTag fs ++ (splitext s.2).2) :=
    fun hh => fresh_name_ne "temp_" (splitext s.2).2 hq (congrArg Prod.snd hh)
  have hc1 : (q, c) ∈ fsRename fs s (s.1, "temp_" ++ freshTag fs ++ (splitext s.2).2) :=
    mem_fsRename_of_ne _ _ hq hqs htmp
  simp only [applyPlanF, nf_temp, nf_backup, nf_final, nf_compare, nf_alt, if_false]
  by_cases hex : fsExists
      (fsRename fs s (s.1, "temp_" ++ freshTag fs ++ (splitext s.2).2)) d = true
  · rw [if_pos hex]
    have hbk : q ≠ (d.1, "backup_"
        ++ freshTag (fsRename fs s (s.1, "temp_" ++ freshTag fs ++ (splitext s.2).2))
        ++ (splitext d.2).2) :=
      fun hh => fresh_name_ne "backup_" (splitext d.2).2 hc1 (congrArg Prod.snd hh)
    have hc2 := mem_fsRename_of_ne _ _ hc1 hqd hbk
    have hc3 := mem_fsRename_of_ne _ _ hc2 htmp hqd
    split_ifs
    · exact mem_fsRemove_of_ne _ hc3 hbk
    · exact mem_fsRename_of_ne _ _ hc3 hbk hqa
  · rw [if_neg hex]
    exact mem_fsRename_of_ne _ _ hc1 htmp hqd

/-- Bound on the paths present after a fault-free plan application: every
binding either survived from before (at a path other than the source) or
lives at the destination or at the `_alt` path. -/
theorem applyPlan_keys_bound (fs : Fs) (low : String) (s d q : Path)
    (c : Content) (hs : (fsGet fs s).isSome = true)
    (hq : (q, c) ∈ (applyPlanF none false fs low s d).1) :
    ((∃ c2, (q, c2) ∈ fs) ∧ q ≠ s) ∨ q = d ∨ q = altPath low d := by
  simp only [applyPlanF, nf_temp, nf_backup, nf_final, nf_compare, nf_alt,
    if_false] at hq
  have chase1 : ∀ {c2 : Content},
      (q, c2) ∈ fsRename fs s (s.1, "temp_" ++ freshTag fs ++ (splitext s.2).2) →
      q ≠ (s.1, "temp_" ++ freshTag fs ++ (splitext s.2).2) →
      ((∃ c3, (q, c3) ∈ fs) ∧ q ≠ s) := by
    intro c2 hm hnt
    rcases mem_fsRename_cases hm with ⟨hin, hside⟩ | ⟨hqt, _⟩
    · rcases hside with hnone | ⟨hqs, _⟩
      · rw [Option.isSome_iff_ne_none] at hs
        exact absurd hnone hs
      · exact ⟨⟨c2, hin⟩, hqs⟩
    · exact absurd hqt hnt
  by_cases hex : fsExists
      (fsRename fs s (s.1, "temp_" ++ freshTag fs ++ (splitext s.2).2)) d = true
  · rw [if_pos hex] at hq
    -- chase through backup rename, final rename, then remove or alt rename
    have chase3 : ∀ {c2 : Content},
        (q, c2) ∈ fsRename
          (fsRename (fsRename fs s (s.1, "temp_" ++ freshTag fs ++ (splitext s.2).2)) d
            (d.1, "backup_"
              ++ freshTag (fsRename fs s (s.1, "temp_" ++ freshTag fs ++ (splitext s.2).2))
              ++ (splitext d.2).2))
          (s.1, "temp_" ++ freshTag fs ++ (splitext s.2).2) d →
        q ≠ (d.1, "backup_"
            ++ freshTag (fsRename fs s (s.1, "temp_" ++ freshTag fs ++ (splitext s.2).2))
            ++ (splitext d.2).2) →
        ((∃ c3, (q, c3) ∈ fs) ∧ q ≠ s) ∨ q = d := by
      intro c2 hm hnbk
      rcases mem_fsRename_cases hm with ⟨hin2, hside2⟩ | ⟨hqd, _⟩
      · -- q survived the final rename: it is not the temp (or temp was gone)
        have hnt : q ≠ (s.1, "temp_" ++ freshTag fs ++ (splitext s.2).2) := by
          rcases hside2 with hnone2 | ⟨hqt, _⟩
          · intro hh
            have hsome := mem_fsGet_isSome hin2
            rw [hh] at hsome
            rw [hnone2] at hsome
            exact Bool.false_ne_true hsome
          · exact hqt
        rcases mem_fsRename_cases hin2 with ⟨hin1, _⟩ | ⟨hqbk, _⟩
        · exact Or.inl (chase1 hin1 hnt)
        · exact absurd hqbk hnbk
      · exact Or.inr hqd
    split_ifs at hq
    · -- identical contents: backup removed
      rcases mem_fsRemove_cases hq with ⟨hin3, hnbk⟩
      rcases chase3 hin3 hnbk with hl | hd
      · exact Or.inl hl
      · exact Or.inr (Or.inl hd)
    · -- divergent contents: backup renamed to the alt path
      rcases mem_fsRename_cases hq with ⟨hin3, hside3⟩ | ⟨hqa, _⟩
      · have hnbk : q ≠ (d.1, "backup_"
            ++ freshTag (fsRename fs s (s.1, "temp_" ++ freshTag fs ++ (splitext s.2).2))
            ++ (splitext d.2).2) := by
          rcases hside3 with hnone3 | ⟨hqbk, _⟩
          · intro hh
            have hsome := mem_fsGet_isSome hin3
            rw [hh] at hsome
            rw [hnone3] at hsome
            exact Bool.false_ne_true hsome
          · exact hqbk
        rcases chase3 hin3 hnbk with hl | hd
        · exact Or.inl hl
        · exact Or.inr (Or.inl hd)
      · exact Or.inr (Or.inr hqa)
  · rw [if_neg hex] at hq
    rcases mem_fsRename_cases hq with ⟨hin1, hside1⟩ | ⟨hqd, _⟩
    · have hnt : q ≠ (s.1, "temp_" ++ freshTag fs ++ (splitext s.2).2) := by
        rcases hside1 with hnone1 | ⟨hqt, _⟩
        · intro hh
          have hsome := mem_fsGet_isSome hin1
          rw [hh] at hsome
          rw [hnone1] at hsome
          exact Bool.false_ne_true hsome
        · exact hqt
      exact Or.inl (chase1 hin1 hnt)
    · exact Or.inr (Or.inl hqd)

/-- The `_alt` name built from an already-lowercase `lowercase_filename` is
itself lowercase. -/
theorem altPath_lower (low : String) (hlow : pyLower low = low) (dd : Path) :
    pyLower (altPath low dd).2 = (altPath low dd).2 := by
  show pyLower ((splitext low).1 ++ "_alt" ++ (splitext low).2)
    = (splitext low).1 ++ "_alt" ++ (splitext low).2
  rw [pyLower_append, pyLower_append, splitext_fst_lower low hlow,
    splitext_snd_lower low hlow, show pyLower "_alt" = "_alt" from by decide]

/-- Master invariant: applying the collected plans turns every walked
in-scope name lowercase — provided the plans' sources are distinct, present,
correctly paired with their lowercase destinations, and cover every
non-lowercase walked in-scope file. -/
theorem applyPlans_normalize (root : String) (ex : List String) (low : String)
    (hlow : pyLower low = low) :
    ∀ (plans : List (Path × Path)) (i : Nat) (fs : Fs),
      (∀ pd ∈ plans, pd.2 = (pd.1.1, pyLower pd.1.2) ∧ pd.1.2 ≠ pyLower pd.1.2) →
      (plans.map (fun pd => pd.1)).Nodup →
      (∀ pd ∈ plans, ∃ c, (pd.1, c) ∈ fs) →
      (∀ q (c : Content), (q, c) ∈ fs → walkedDir root ex q.1 = true →
        isCppHpp q.2 = true → q.2 ≠ pyLower q.2 →
        q ∈ plans.map (fun pd => pd.1)) →
      ∀ q (c : Content), (q, c) ∈ (applyPlansFAux noFaults low i fs plans).1 →
        walkedDir root ex q.1 = true → isCppHpp q.2 = true →
        pyLower q.2 = q.2 := by
  intro plans
  induction plans with
  | nil =>
      intro i fs hprops hnd hpres hcomp q c hq hw hcpp
      by_contra hne
      have hm := hcomp q c hq hw hcpp (fun hh => hne hh.symm)
      simp at hm
  | cons p rest ih =>
      intro i fs hprops hnd hpres hcomp q c hq hw hcpp
      obtain ⟨c0, hp0⟩ := hpres p (List.mem_cons_self p rest)
      have hpprop := hprops p (List.mem_cons_self p rest)
      have hsome : (fsGet fs p.1).isSome = true := mem_fsGet_isSome hp0
      have hdstlow : pyLower p.2.2 = p.2.2 := by
        rw [hpprop.1]
        exact pyLower_idem p.1.2
      have haltlow := altPath_lower low hlow p.2
      rw [List.map_cons] at hnd
      simp only [applyPlansFAux, noFaults] at hq
      refine ih (i + 1) _ ?_ (List.Nodup.of_cons hnd) ?_ ?_ q c hq hw hcpp
      · intro pd hpd
        exact hprops pd (List.mem_cons_of_mem p hpd)
      · intro pd hpd
        obtain ⟨c2, hc2⟩ := hpres pd (List.mem_cons_of_mem p hpd)
        have hpdprop := hprops pd (List.mem_cons_of_mem p hpd)
        have hnds : pd.1 ≠ p.1 := by
          intro hh
          exact (List.nodup_cons.mp hnd).1
            (hh ▸ List.mem_map.mpr ⟨pd, hpd, rfl⟩)
        have hnd2 : pd.1 ≠ p.2 := by
          intro hh
          apply hpdprop.2
          rw [hh]
          exact hdstlow.symm
        have hnd3 : pd.1 ≠ altPath low p.2 := by
          intro hh
          apply hpdprop.2
          rw [hh]
          exact haltlow.symm
        exact ⟨c2, applyPlan_preserves fs low p.1 p.2 pd.1 c2 hc2 hnds hnd2 hnd3⟩
      · intro q2 c2 h2 hw2 hcpp2 hne2
        rcases applyPlan_keys_bound fs low p.1 p.2 q2 c2 hsome h2 with
          ⟨⟨c3, hc3⟩, hq2s⟩ | hq2d | hq2a
        · have hmm := hcomp q2 c3 hc3 hw2 hcpp2 hne2
          rw [List.map_cons] at hmm
          rcases List.mem_cons.mp hmm with hh | hh
          · exact absurd hh hq2s
          · exact hh
        · exfalso
          apply hne2
          rw [hq2d]
          exact hdstlow.symm
        · exfalso
          apply hne2
          rw [hq2a]
          exact haltlow.symm

/-- The forward-only driver is the apply pass over the collected plans. -/
theorem convert_forward_shape (dedup : List String → List String)
    (faults : Nat → Option FStep × Bool) (fs : Fs) (root : String)
    (ex : List String) :
    convertToLowercase dedup faults fs root ex []
      = ((applyPlansFAux faults ((collectAux root ex fs).2.getD "") 0 fs
            (collectAux root ex fs).1).1,
         (applyPlansFAux faults ((collectAux root ex fs).2.getD "") 0 fs
            (collectAux root ex fs).1).2.1,
         (applyPlansFAux faults ((collectAux root ex fs).2.getD "") 0 fs
            (collectAux root ex fs).1).2.2,
         []) := rfl

/-- Claim C4: (1) a plan is emitted only for a file whose name differs
case-sensitively from its lowercase form; (2) after one forward pass, a
second collection pass over the result yields zero plans; (3) hence a second
forward run returns the tree unchanged, with no renames, no skips and no
reverts.  The key-uniqueness hypothesis says each path occurs once in the
filesystem listing. -/
theorem c4_idempotent (dedup : List String → List String) (fs : Fs)
    (root : String) (ex : List String)
    (hnd : (fs.map (fun e => e.1)).Nodup) :
    (∀ pd ∈ (collectAux root ex fs).1, pd.1.2 ≠ pyLower pd.1.2)
    ∧ (collectAux root ex (convertToLowercase dedup noFaults fs root ex []).1).1 = []
    ∧ convertToLowercase dedup noFaults
        (convertToLowercase dedup noFaults fs root ex []).1 root ex []
      = ((convertToLowercase dedup noFaults fs root ex []).1, [], [], []) := by
  have hlow : pyLower ((collectAux root ex fs).2.getD "")
      = (collectAux root ex fs).2.getD "" := by
    cases hcol : (collectAux root ex fs).2 with
    | none => decide
    | some t =>
        simp only [Option.getD_some]
        exact collectAux_stale hcol
  have hnorm : ∀ q (c : Content),
      (q, c) ∈ (convertToLowercase dedup noFaults fs root ex []).1 →
      walkedDir root ex q.1 = true → isCppHpp q.2 = true →
      pyLower q.2 = q.2 := by
    intro q c hq hw hcpp
    rw [convert_forward_shape] at hq
    refine applyPlans_normalize root ex _ hlow (collectAux root ex fs).1 0 fs
      ?_ ?_ ?_ ?_ q c hq hw hcpp
    · intro pd hpd
      have hm := collectAux_mem hpd
      exact ⟨hm.2.2.2, hm.2.2.1⟩
    · exact hnd.sublist collectAux_srcs_sublist
    · intro pd hpd
      have hmemk : pd.1 ∈ fs.map (fun e => e.1) :=
        collectAux_srcs_sublist.subset (List.mem_map.mpr ⟨pd, hpd, rfl⟩)
      obtain ⟨e2, he2, heq⟩ := List.mem_map.mp hmemk
      refine ⟨e2.2, ?_⟩
      rw [← heq]
      exact he2
    · intro q2 c2 h2 hw2 hcpp2 hne2
      exact List.mem_map.mpr
        ⟨(q2, (q2.1, pyLower q2.2)), collectAux_complete h2 hw2 hcpp2 hne2, rfl⟩
  have hplans2 : (collectAux root ex
      (convertToLowercase dedup noFaults fs root ex []).1).1 = [] := by
    apply collectAux_nil_of_norm
    intro q c hq hw hcpp
    exact hnorm q c hq hw hcpp
  refine ⟨?_, hplans2, ?_⟩
  · intro pd hpd
    exact (collectAux_mem hpd).2.2.1
  · rw [convert_forward_shape dedup noFaults
      (convertToLowercase dedup noFaults fs root ex []).1 root ex, hplans2]
    simp only [applyPlansFAux]

/-- Witness for `c4_idempotent`: a directory with the lone file `A.hpp`;
its keys are trivially unique, and the second pass collects no plans. -/
theorem c4_idempotent_witness :
    (collectAux "w" [] (convertToLowercase dedupFirst noFaults
        [(("w", "A.hpp"), [1])] "w" [] []).1).1 = [] :=
  (c4_idempotent dedupFirst [(("w", "A.hpp"), [1])] "w" [] (by decide)).2.1

end HydraLower
